import Mathlib

/-!
Verification of the vmalert rule-reconciliation core
(`internal/controller/operator/factory/vmalert/rules.go`).

Shallow embedding conventions:
* a Go `string` is a Lean `String`; `len(s)` (bytes) is `byteLen s`, the length
  of the UTF-8 encoding of the string (`strBytes`);
* a Go `map[string]string` is an association list `List (String × String)`
  whose observable behaviour is `List.lookup`; map assignment `m[k] = v` is
  `mapSet`, which replaces any previous binding of `k`;
* Go's `sort.Strings` / `sort.Slice` are modelled with `List.insertionSort`
  over the bytewise-lexicographic order `goStrLe` (UTF-8 bytewise comparison
  coincides with code-point lexicographic comparison);
* the 64-bit FNV-1a hash (`hash/fnv`, `New64a`) is computed over `Nat` with an
  explicit `% 2^64` at the multiplication, exactly the overflow Go performs.
-/

/-- UTF-8 encoding of one character, as the list of its byte values.
This models how Go stores a `string` (Go source literals are UTF-8). -/
def charBytes (c : Char) : List Nat :=
  let n := c.toNat
  if n < 128 then [n]
  else if n < 2048 then [192 + n / 64, 128 + n % 64]
  else if n < 65536 then [224 + n / 4096, 128 + n / 64 % 64, 128 + n % 64]
  else [240 + n / 262144, 128 + n / 4096 % 64, 128 + n / 64 % 64, 128 + n % 64]

/-- The UTF-8 byte sequence of a string: the bytes Go's `len` and `Write` see. -/
def strBytes (s : String) : List Nat :=
  (s.data.map charBytes).flatten

/-- Model of Go's `len(s)` for a string: the number of UTF-8 bytes. -/
def byteLen (s : String) : Nat :=
  (strBytes s).length

/-- Bytewise (equivalently code-point lexicographic) comparison of character
lists, the order Go's `<` on strings induces on valid UTF-8 data. -/
def charListLe : List Char → List Char → Bool
  | [], _ => true
  | _ :: _, [] => false
  | a :: as, b :: bs => if a < b then true else if b < a then false else charListLe as bs

/-- Go's `s1 <= s2` on strings (bytewise lexicographic). -/
def goStrLe (a b : String) : Bool :=
  charListLe a.data b.data

/-- Model of `sort.Strings`: sort ascending by `goStrLe`. -/
def sortStrings (l : List String) : List String :=
  List.insertionSort (fun a b => goStrLe a b = true) l

/-- Model of Go map assignment `m[k] = v` on an association list: any previous
binding of `k` is replaced (a Go map has one binding per key and no order). -/
def mapSet (m : List (String × String)) (k v : String) : List (String × String) :=
  (k, v) :: m.filter fun p => p.1 != k

/-- One rule of a rule group (`vmv1beta1.Rule`). Only the fields that
`calculateRuleID`, `deduplicateRules` and `generateContent` read are modelled;
the remaining Go fields (`For`, `KeepFiringFor`, the annotation map, …) enter
neither the hash nor any control flow of `rules.go`. -/
structure Rule where
  record : String
  alert : String
  expr : String
  labels : List (String × String)
deriving DecidableEq

/-- A named group of rules (`vmv1beta1.RuleGroup`). -/
structure RuleGroup where
  name : String
  rules : List Rule
deriving DecidableEq

/-- A rule source object (`vmv1beta1.VMRule`): identity plus its groups. -/
structure VMRule where
  name : String
  ns : String
  groups : List RuleGroup
deriving DecidableEq

/-- FNV-1a 64-bit offset basis (Go `hash/fnv`). -/
def fnvOffsetBasis : Nat := 14695981039346656037

/-- FNV-1a 64-bit prime (Go `hash/fnv`). -/
def fnvPrime : Nat := 1099511628211

/-- One FNV-1a step: xor in the byte, multiply by the prime modulo 2^64. -/
def fnvStep (h b : Nat) : Nat :=
  ((h ^^^ b) * fnvPrime) % (2 ^ 64)

/-- `h.Write(bs)` for the FNV-1a hash: fold the step over the bytes. -/
def fnvWrite (h : Nat) (bs : List Nat) : Nat :=
  bs.foldl fnvStep h

/-- `sortMap` from rules.go: the label map as a key-sorted list of pairs. -/
def sortMap (m : List (String × String)) : List (String × String) :=
  List.insertionSort (fun a b => goStrLe a.1 b.1 = true) m

/-- Hash the sorted label pairs: for each pair write key, value and the
separator byte 0xFF, exactly as the loop in `calculateRuleID`. -/
def hashLabelPairs (h : Nat) (kvs : List (String × String)) : Nat :=
  kvs.foldl (fun h kv => fnvWrite (fnvWrite (fnvWrite h (strBytes kv.1)) (strBytes kv.2)) [255]) h

/-- `calculateRuleID` from rules.go: FNV-1a over expr, the kind tag with the
record-or-alert name, then the key-sorted label pairs with 0xFF separators. -/
def calculateRuleID (r : Rule) : Nat :=
  let h0 := fnvWrite fnvOffsetBasis (strBytes r.expr)
  let h1 :=
    if r.record ≠ "" then fnvWrite (fnvWrite h0 (strBytes "recording")) (strBytes r.record)
    else fnvWrite (fnvWrite h0 (strBytes "alerting")) (strBytes r.alert)
  hashLabelPairs h1 (sortMap r.labels)

/-- The per-group loop body of `deduplicateRules`: walk the rules in order,
keep a rule iff its `calculateRuleID` was not seen before (the Go `uniqRules`
set is the `seen` list, only membership is used). -/
def dedupRulesList (seen : List Nat) : List Rule → List Rule
  | [] => []
  | r :: rs =>
    if calculateRuleID r ∈ seen then dedupRulesList seen rs
    else r :: dedupRulesList (calculateRuleID r :: seen) rs

/-- Deduplicate one group: its rules are filtered with a fresh seen-set. -/
def dedupGroup (g : RuleGroup) : RuleGroup :=
  { g with rules := dedupRulesList [] g.rules }

/-- `deduplicateRules` from rules.go: every group of every rule source is
deduplicated independently; everything else is left in place. -/
def deduplicateRules (origin : List VMRule) : List VMRule :=
  origin.map fun vr => { vr with groups := vr.groups.map dedupGroup }

/-- Spec-side description of one dedup pass, in the spec's words: keep the
first occurrence of each identity hash, drop every later occurrence. -/
def firstOccurrences : List Rule → List Rule
  | [] => []
  | r :: rs =>
    r :: firstOccurrences (rs.filter fun x => calculateRuleID x != calculateRuleID r)
termination_by l => l.length
decreasing_by
  simp only [List.length_cons]
  exact Nat.lt_succ_of_le (List.length_filter_le _ _)

/-- Overwrite one rule's label for the enforced-namespace-label feature. -/
def enforceLabel (lbl ns : String) (r : Rule) : Rule :=
  { r with labels := mapSet r.labels lbl ns }

/-- `generateContent` from rules.go up to the serialization call: when the
enforced namespace label key is non-empty, set that label to the source's
namespace on every rule of every group. The final `yaml.Marshal` is an
external library serializing exactly the groups returned here, so the label
mapping of the rendered output is the one this function computes. -/
def generateContent (groups : List RuleGroup) (enforcedNsLabel ns : String) : List RuleGroup :=
  if enforcedNsLabel ≠ "" then
    groups.map fun g => { g with rules := g.rules.map (enforceLabel enforcedNsLabel ns) }
  else groups

/-- The `defAlert` fallback rule file embedded in rules.go (verbatim; braces
written as escapes). -/
def defAlert : String :=
  "\ngroups:\n- name: vmAlertGroup\n  rules:\n     - alert: error writing to remote\n       for: 1m\n       expr: rate(vmalert_remotewrite_errors_total[1m]) > 0\n       labels:\n         host: \"\x7b\x7b $labels.instance \x7d\x7d\"\n       annotations:\n         summary: \" error writing to remote writer from vmaler\x7b\x7b $value|humanize \x7d\x7d\"\n         description: \"error writing to remote writer from vmaler \x7b\x7b$labels\x7d\x7d\"\n         back: \"error rate is ok at vmalert \"\n"

/-- Lines 231-235 of rules.go: when the rendered file map is empty, the
reserved fallback file is injected so the artifact set is never empty. -/
def injectDefaultRule (rules : List (String × String)) : List (String × String) :=
  if rules.isEmpty then [("default-vmalert.yaml", defAlert)] else rules

/-- The tail of `selectRulesUpdateStatus` relevant to the fallback claim: the
file map after the empty-check, paired with the bad-rule count that feeds the
`badConfigsTotal` counter (line 236), which the injection does not touch. -/
def selectRulesFinalize (rules : List (String × String)) (badCount : Nat) :
    List (String × String) × Nat :=
  (injectDefaultRule rules, badCount)

/-- `bucketSize` from rules.go: total byte length of a bucket's contents. -/
def bucketSize (bucket : List (String × String)) : Nat :=
  (bucket.map fun p => byteLen p.2).sum

/-- Modelled from the spec: `vmv1beta1.MaxConfigMapDataSize` (the spec's
`MaxArtifactDataSize`, "int, byte cap per artifact") is declared in the API
package, which is not among the source files; it is a fixed positive byte
cap, modelled here as 1 MiB, the Kubernetes object-size bound. All general
theorems below are parametric in the cap and do not depend on this value. -/
def MaxConfigMapDataSize : Nat := 1048576

/-- The packing loop of `makeRulesConfigMaps` (lines 293-300): `done` holds
the closed buckets, `curr` the bucket at `currBucketIndex`; when the next
file does not fit into `curr`, a fresh bucket is opened and the file is put
there, otherwise it joins `curr`. `f` is the content lookup. -/
def packGo (cap : Nat) (f : String → String) :
    List String → List (List (String × String)) → List (String × String) →
    List (List (String × String))
  | [], done, curr => done ++ [curr]
  | n :: ns, done, curr =>
    if bucketSize curr + byteLen (f n) > cap then
      packGo cap f ns (done ++ [curr]) [(n, f n)]
    else
      packGo cap f ns done (curr ++ [(n, f n)])

/-- The bucket phase of `makeRulesConfigMaps`: sort the filenames, then run
the packing loop starting from one empty bucket. -/
def makeBuckets (cap : Nat) (ruleFiles : List (String × String)) :
    List (List (String × String)) :=
  packGo cap (fun n => (ruleFiles.lookup n).getD "") (sortStrings (ruleFiles.map Prod.fst)) [] []

/-- The owning `VMAlert` resource: only its identity is read by this file. -/
structure VMAlert where
  name : String
  ns : String
deriving DecidableEq

/-- A rule ConfigMap as this code builds and compares it. Owner references
are opaque to every compared field and are omitted; the `Finalizers` slice is
modelled by the presence bit `finalized` (rules.go only ever installs the one
operator finalizer). -/
structure ConfigMap where
  name : String
  ns : String
  labels : List (String × String)
  anns : List (String × String)
  data : List (String × String)
  finalized : Bool
deriving DecidableEq

/-- The static managed-by marker labels from rules.go. -/
def managedByOperatorLabels : List (String × String) :=
  [("managed-by", "vm-operator")]

/-- `ruleConfigMapName` from rules.go. -/
def ruleConfigMapName (vmName : String) : String :=
  "vm-" ++ vmName ++ "-rulefiles"

/-- `makeRulesConfigMap` from rules.go: one ConfigMap for one bucket. -/
def makeRulesConfigMap (cr : VMAlert) (ruleFiles : List (String × String)) : ConfigMap :=
  { name := ruleConfigMapName cr.name
    ns := cr.ns
    labels := managedByOperatorLabels.foldl (fun m kv => mapSet m kv.1 kv.2) [("vmalert-name", cr.name)]
    anns := []
    data := ruleFiles
    finalized := true }

/-- `makeRulesConfigMaps` from rules.go: pack the files into buckets with the
fixed cap, then name one ConfigMap per bucket with the bucket index suffix. -/
def makeRulesConfigMaps (cr : VMAlert) (ruleFiles : List (String × String)) : List ConfigMap :=
  (makeBuckets MaxConfigMapDataSize ruleFiles).enum.map fun ib =>
    let cm := makeRulesConfigMap cr ib.2
    { cm with name := cm.name ++ "-" ++ toString ib.1 }

/-- Model of `labels.Merge(base, overlay)` (k8s apimachinery, an external
collaborator): a map holding every binding of `overlay` and the bindings of
`base` whose key `overlay` does not bind — overlay wins on collision. -/
def labelsMerge (base overlay : List (String × String)) : List (String × String) :=
  overlay ++ base.filter fun p => (overlay.lookup p.1).isNone

/-- Model of `equality.Semantic.DeepEqual` on two string maps: the same
bindings (association lists with the same lookup graph). -/
def mapEq (a b : List (String × String)) : Bool :=
  (a.all fun p => b.lookup p.1 == some p.2) && (b.all fun p => a.lookup p.1 == some p.2)

/-- The three-way semantic comparison of lines 168-170: data, labels and
annotations of the (merged) desired object against the existing one. -/
def cmEq (a b : ConfigMap) : Bool :=
  mapEq a.data b.data && mapEq a.labels b.labels && mapEq a.anns b.anns

/-- Modelled from the spec: `vmv1beta1.AddFinalizer(&newCM, &currentCM)` is
declared in the API package, which is not among the source files; the spec
says the existing finalizer-presence state is carried forward onto the
desired object, so a currently-finalized object stays finalized. -/
def addFinalizer (dst src : ConfigMap) : ConfigMap :=
  { dst with finalized := dst.finalized || src.finalized }

/-- Lines 166-167 of rules.go applied to one matched pair: merge annotations
with the existing map as base, then carry the finalizer state forward. -/
def mergeNewCM (newCM currentCM : ConfigMap) : ConfigMap :=
  addFinalizer { newCM with anns := labelsMerge currentCM.anns newCM.anns } currentCM

/-- The classification loop of `rulesCMDiff` (lines 161-180): for each desired
ConfigMap take the first existing one with the same name (the Go inner loop
breaks at the first match); no match → create; a match that is semantically
equal after the merge → drop; otherwise → update. -/
def diffGo (currentCMs : List ConfigMap) : List ConfigMap → List ConfigMap × List ConfigMap
  | [] => ([], [])
  | newCM :: rest =>
    let acc := diffGo currentCMs rest
    match currentCMs.find? fun c => c.name == newCM.name with
    | none => (newCM :: acc.1, acc.2)
    | some currentCM =>
      let m := mergeNewCM newCM currentCM
      if cmEq m currentCM then acc else (acc.1, m :: acc.2)

/-- `rulesCMDiff` from rules.go, including its two early returns. -/
def rulesCMDiff (currentCMs newCMs : List ConfigMap) : List ConfigMap × List ConfigMap :=
  if newCMs.isEmpty then ([], [])
  else if currentCMs.isEmpty then (newCMs, [])
  else diffGo currentCMs newCMs

/-- The zero value a `make`-allocated `corev1.ConfigMap` slice entry holds. -/
def zeroConfigMap : ConfigMap :=
  { name := "", ns := "", labels := [], anns := [], data := [], finalized := false }

/-- Lines 75-85 of `CreateOrUpdateRuleConfigMaps`: `currentCMs` is allocated
with `make([]corev1.ConfigMap, len(newConfigMaps))` — length equal to the
desired list — and the loop overwrites index `idx` when the cluster `Get`
finds the object, leaving the zero value on NotFound (`continue`). -/
def mkCurrentCMs (newCMs : List ConfigMap) (cluster : String → Option ConfigMap) : List ConfigMap :=
  newCMs.map fun cm => (cluster cm.name).getD zeroConfigMap

/-- Line 92 of `CreateOrUpdateRuleConfigMaps`: the create-everything fast path
runs iff `len(currentCMs) == 0`. -/
def fastPathTaken (newCMs : List ConfigMap) (cluster : String → Option ConfigMap) : Bool :=
  (mkCurrentCMs newCMs cluster).length == 0

/-- Adjacent-bucket overflow: the next bucket is nonempty and its first file
did not fit into the previous bucket. `List.Chain'` of this relation over the
produced buckets states that a new bucket is opened exactly on overflow of
the current one. -/
def adjOverflow (cap : Nat) (b b' : List (String × String)) : Prop :=
  match b' with
  | [] => False
  | q :: _ => cap < bucketSize b + byteLen q.2

theorem charListLe_cons_iff {x y : Char} {xs ys : List Char} :
    charListLe (x :: xs) (y :: ys) = true ↔ x < y ∨ (x = y ∧ charListLe xs ys = true) := by
  rcases lt_trichotomy x y with h | h | h
  · simp [charListLe, h]
  · subst h
    simp [charListLe, lt_irrefl]
  · simp only [charListLe, if_neg (asymm h), if_pos h]
    simp [asymm h, ne_of_gt h]

theorem charListLe_refl : ∀ l : List Char, charListLe l l = true
  | [] => rfl
  | _ :: xs => by simp [charListLe_cons_iff, charListLe_refl xs]

theorem charListLe_total : ∀ a b : List Char, charListLe a b = true ∨ charListLe b a = true
  | [], _ => Or.inl rfl
  | _ :: _, [] => Or.inr rfl
  | x :: xs, y :: ys => by
    rcases lt_trichotomy x y with h | h | h
    · exact Or.inl (charListLe_cons_iff.mpr (Or.inl h))
    · subst h
      rcases charListLe_total xs ys with h' | h'
      · exact Or.inl (charListLe_cons_iff.mpr (Or.inr ⟨rfl, h'⟩))
      · exact Or.inr (charListLe_cons_iff.mpr (Or.inr ⟨rfl, h'⟩))
    · exact Or.inr (charListLe_cons_iff.mpr (Or.inl h))

theorem charListLe_trans : ∀ a b c : List Char,
    charListLe a b = true → charListLe b c = true → charListLe a c = true
  | [], _, _, _, _ => rfl
  | _ :: _, [], _, hab, _ => by simp [charListLe] at hab
  | _ :: _, _ :: _, [], _, hbc => by simp [charListLe] at hbc
  | x :: xs, y :: ys, z :: zs, hab, hbc => by
    rcases charListLe_cons_iff.mp hab with h₁ | ⟨h₁, t₁⟩ <;>
      rcases charListLe_cons_iff.mp hbc with h₂ | ⟨h₂, t₂⟩
    · exact charListLe_cons_iff.mpr (Or.inl (lt_trans h₁ h₂))
    · exact charListLe_cons_iff.mpr (Or.inl (h₂ ▸ h₁))
    · exact charListLe_cons_iff.mpr (Or.inl (h₁ ▸ h₂))
    · exact charListLe_cons_iff.mpr (Or.inr ⟨h₁.trans h₂, charListLe_trans xs ys zs t₁ t₂⟩)

theorem charListLe_antisymm : ∀ a b : List Char,
    charListLe a b = true → charListLe b a = true → a = b
  | [], [], _, _ => rfl
  | [], _ :: _, _, hba => by simp [charListLe] at hba
  | _ :: _, [], hab, _ => by simp [charListLe] at hab
  | x :: xs, y :: ys, hab, hba => by
    rcases charListLe_cons_iff.mp hab with h₁ | ⟨h₁, t₁⟩ <;>
      rcases charListLe_cons_iff.mp hba with h₂ | ⟨h₂, t₂⟩
    · exact absurd h₂ (asymm h₁)
    · exact absurd h₁ (h₂ ▸ lt_irrefl x)
    · exact absurd h₂ (h₁ ▸ lt_irrefl x)
    · rw [h₁, charListLe_antisymm xs ys t₁ t₂]

theorem goStrLe_total (a b : String) : goStrLe a b = true ∨ goStrLe b a = true :=
  charListLe_total a.data b.data

theorem goStrLe_trans {a b c : String} (h₁ : goStrLe a b = true) (h₂ : goStrLe b c = true) :
    goStrLe a c = true :=
  charListLe_trans a.data b.data c.data h₁ h₂

theorem goStrLe_antisymm {a b : String} (h₁ : goStrLe a b = true) (h₂ : goStrLe b a = true) :
    a = b := by
  have := charListLe_antisymm a.data b.data h₁ h₂
  cases a; cases b
  exact congrArg String.mk this

instance : IsTotal String fun a b => goStrLe a b = true := ⟨goStrLe_total⟩

instance : IsTrans String fun a b => goStrLe a b = true := ⟨fun _ _ _ => goStrLe_trans⟩

instance : IsAntisymm String fun a b => goStrLe a b = true := ⟨fun _ _ => goStrLe_antisymm⟩

instance : IsTotal (String × String) fun a b => goStrLe a.1 b.1 = true :=
  ⟨fun a b => goStrLe_total a.1 b.1⟩

instance : IsTrans (String × String) fun a b => goStrLe a.1 b.1 = true :=
  ⟨fun _ _ _ => goStrLe_trans⟩

theorem lookup_mem : ∀ {l : List (String × String)} {k v : String},
    l.lookup k = some v → (k, v) ∈ l
  | (a, b) :: t, k, v, h => by
    by_cases hk : k = a
    · subst hk
      rw [List.lookup_cons] at h
      simp only [beq_self_eq_true] at h
      cases h
      exact List.mem_cons_self _ _
    · have hb : (k == a) = false := beq_eq_false_iff_ne.mpr hk
      rw [List.lookup_cons, hb] at h
      exact List.mem_cons_of_mem _ (lookup_mem h)

theorem lookup_eq_some_of_nodup {l : List (String × String)} {k v : String}
    (hnd : (l.map Prod.fst).Nodup) (hm : (k, v) ∈ l) : l.lookup k = some v := by
  induction l with
  | nil => cases hm
  | cons p t ih =>
    obtain ⟨a, b⟩ := p
    simp only [List.map_cons, List.nodup_cons] at hnd
    rcases List.mem_cons.mp hm with h | h
    · cases h
      simp [List.lookup_cons]
    · have hk : k ≠ a := by
        rintro rfl
        exact hnd.1 (List.mem_map.mpr ⟨(k, v), h, rfl⟩)
      have hb : (k == a) = false := beq_eq_false_iff_ne.mpr hk
      rw [List.lookup_cons, hb]
      exact ih hnd.2 h

theorem lookup_isSome_of_mem_keys {l : List (String × String)} {k : String}
    (h : k ∈ l.map Prod.fst) : ∃ v, l.lookup k = some v := by
  induction l with
  | nil => cases h
  | cons p t ih =>
    obtain ⟨a, b⟩ := p
    by_cases hk : k = a
    · subst hk
      exact ⟨b, by simp [List.lookup_cons]⟩
    · simp only [List.map_cons, List.mem_cons] at h
      have hb : (k == a) = false := beq_eq_false_iff_ne.mpr hk
      rcases h with h | h
      · exact absurd h hk
      · rw [List.lookup_cons, hb]
        exact ih h

theorem packGo_flatten (cap : Nat) (f : String → String) :
    ∀ (ns : List String) (done : List (List (String × String))) (curr : List (String × String)),
      (packGo cap f ns done curr).flatten = done.flatten ++ curr ++ ns.map fun n => (n, f n)
  | [], done, curr => by simp [packGo]
  | n :: ns, done, curr => by
    rw [packGo]
    split
    · rw [packGo_flatten cap f ns (done ++ [curr]) [(n, f n)]]
      simp
    · rw [packGo_flatten cap f ns done (curr ++ [(n, f n)])]
      simp

theorem makeBuckets_flatten (cap : Nat) (files : List (String × String)) :
    (makeBuckets cap files).flatten =
      (sortStrings (files.map Prod.fst)).map fun n => (n, (files.lookup n).getD "") := by
  rw [makeBuckets, packGo_flatten]
  simp

theorem sortStrings_perm (l : List String) : List.Perm (sortStrings l) l :=
  List.perm_insertionSort _ l

theorem makeRulesConfigMaps_data (cr : VMAlert) (files : List (String × String)) :
    (makeRulesConfigMaps cr files).map ConfigMap.data = makeBuckets MaxConfigMapDataSize files := by
  rw [makeRulesConfigMaps, List.map_map]
  have : (ConfigMap.data ∘ fun ib : Nat × List (String × String) =>
      { makeRulesConfigMap cr ib.2 with
        name := (makeRulesConfigMap cr ib.2).name ++ "-" ++ toString ib.1 }) = Prod.snd := by
    funext ib
    rfl
  rw [this, List.enum_eq_enumFrom, List.enumFrom_map_snd]

theorem countP_buckets_of_sum_one {α : Type} (p : α → Bool) :
    ∀ bs : List (List α), (bs.map (List.countP p)).sum = 1 →
      bs.countP (fun b => b.any p) = 1 := by
  intro bs
  induction bs with
  | nil => intro h; simp at h
  | cons b t ih =>
    intro h
    simp only [List.map_cons, List.sum_cons] at h
    cases hc : b.countP p with
    | zero =>
      have hb : b.any p = false := by
        rw [Bool.eq_false_iff]
        intro hany
        rcases List.any_eq_true.mp hany with ⟨a, ha, hpa⟩
        have := List.countP_eq_zero.mp hc a ha
        exact this hpa
      rw [List.countP_cons_of_neg _ _ (by simp [hb])]
      exact ih (by omega)
    | succ m =>
      have hb : b.any p = true := by
        rcases List.countP_pos_iff.mp (by omega : 0 < b.countP p) with ⟨a, ha, hpa⟩
        exact List.any_eq_true.mpr ⟨a, ha, hpa⟩
      rw [List.countP_cons_of_pos _ _ (by simp [hb])]
      have hts : (t.map (List.countP p)).sum = 0 := by omega
      have ht : t.countP (fun b => b.any p) = 0 := by
        rw [List.countP_eq_zero]
        intro b' hb' hany
        rcases List.any_eq_true.mp hany with ⟨a, ha, hpa⟩
        have hz : b'.countP p = 0 := by
          have := List.sum_eq_zero_iff.mp hts (b'.countP p) (List.mem_map.mpr ⟨b', hb', rfl⟩)
          exact this
        exact (List.countP_eq_zero.mp hz a ha) hpa
      omega

/-- C1. For every finite filename-to-content map (association list with
distinct keys) handed to `makeRulesConfigMaps`, the concatenation of the
produced ConfigMaps' data maps has exactly the bindings of the input map, and
every input filename occurs in exactly one bucket: nothing is dropped,
duplicated across buckets, or altered. -/
theorem makeRulesConfigMaps_partition (cr : VMAlert) (files : List (String × String))
    (hnd : (files.map Prod.fst).Nodup) :
    (∀ k v, ((k, v) ∈ ((makeRulesConfigMaps cr files).map ConfigMap.data).flatten ↔
      (k, v) ∈ files)) ∧
    ∀ k, k ∈ files.map Prod.fst →
      ((makeRulesConfigMaps cr files).map ConfigMap.data).countP
        (fun b => b.any fun p => p.1 == k) = 1 := by
  rw [makeRulesConfigMaps_data]
  have hflat := makeBuckets_flatten MaxConfigMapDataSize files
  have hperm := sortStrings_perm (files.map Prod.fst)
  constructor
  · intro k v
    rw [hflat]
    constructor
    · intro hm
      rcases List.mem_map.mp hm with ⟨n, hn, heq⟩
      obtain ⟨rfl, hv⟩ : n = k ∧ ((files.lookup n).getD "") = v := by
        exact ⟨congrArg Prod.fst heq, congrArg Prod.snd heq⟩
      rcases lookup_isSome_of_mem_keys (hperm.mem_iff.mp hn) with ⟨w, hw⟩
      rw [hw] at hv
      exact hv ▸ lookup_mem hw
    · intro hm
      have hk : k ∈ files.map Prod.fst := List.mem_map.mpr ⟨(k, v), hm, rfl⟩
      refine List.mem_map.mpr ⟨k, hperm.mem_iff.mpr hk, ?_⟩
      rw [lookup_eq_some_of_nodup hnd hm]
      rfl
  · intro k hk
    apply countP_buckets_of_sum_one
    rw [← List.countP_flatten, hflat, List.countP_map]
    have : ((fun p : String × String => p.1 == k) ∘
        fun n => (n, (files.lookup n).getD "")) = fun n => n == k := rfl
    rw [this, ← List.count_eq_countP]
    exact List.count_eq_one_of_mem (hperm.nodup_iff.mpr hnd) (hperm.mem_iff.mpr hk)

theorem makeRulesConfigMaps_partition_witness :
    ("a", "x") ∈ ((makeRulesConfigMaps ⟨"t", "d"⟩ [("a", "x")]).map ConfigMap.data).flatten ↔
      ("a", "x") ∈ [("a", "x")] :=
  (makeRulesConfigMaps_partition ⟨"t", "d"⟩ [("a", "x")] (by decide)).1 "a" "x"

theorem bucketSize_nil : bucketSize [] = 0 := rfl

theorem bucketSize_append_single (l : List (String × String)) (n c : String) :
    bucketSize (l ++ [(n, c)]) = bucketSize l + byteLen c := by
  simp [bucketSize]

theorem bucketSize_single (n c : String) : bucketSize [(n, c)] = byteLen c := by
  simp [bucketSize]

theorem packGo_le_cap (cap : Nat) (f : String → String) :
    ∀ (ns : List String) (done : List (List (String × String))) (curr : List (String × String)),
      (∀ b ∈ done, bucketSize b ≤ cap) → bucketSize curr ≤ cap →
      (∀ n ∈ ns, byteLen (f n) ≤ cap) →
      ∀ b ∈ packGo cap f ns done curr, bucketSize b ≤ cap
  | [], done, curr, hdone, hcurr, _, b, hb => by
    rw [packGo] at hb
    rcases List.mem_append.mp hb with h | h
    · exact hdone b h
    · rw [List.mem_singleton.mp h]
      exact hcurr
  | n :: ns, done, curr, hdone, hcurr, hfit, b, hb => by
    rw [packGo] at hb
    split at hb
    · refine packGo_le_cap cap f ns (done ++ [curr]) [(n, f n)] ?_ ?_ ?_ b hb
      · intro b' hb'
        rcases List.mem_append.mp hb' with h | h
        · exact hdone b' h
        · rw [List.mem_singleton.mp h]
          exact hcurr
      · rw [bucketSize_single]
        exact hfit n (List.mem_cons_self _ _)
      · exact fun m hm => hfit m (List.mem_cons_of_mem _ hm)
    · refine packGo_le_cap cap f ns done (curr ++ [(n, f n)]) hdone ?_ ?_ b hb
      · rw [bucketSize_append_single]
        omega
      · exact fun m hm => hfit m (List.mem_cons_of_mem _ hm)

/-- C2 (amended). Provided every individual file's content is at most the
cap, every ConfigMap produced by `makeRulesConfigMaps` has a total data size
(as computed by `bucketSize`) of at most `MaxConfigMapDataSize`. The
unconditional claim fails: see the counterexample with one oversized file. -/
theorem makeRulesConfigMaps_cap_of_fits (cr : VMAlert) (files : List (String × String))
    (hfit : ∀ p ∈ files, byteLen p.2 ≤ MaxConfigMapDataSize) :
    ∀ cm ∈ makeRulesConfigMaps cr files, bucketSize cm.data ≤ MaxConfigMapDataSize := by
  intro cm hcm
  have hdm : cm.data ∈ (makeRulesConfigMaps cr files).map ConfigMap.data :=
    List.mem_map.mpr ⟨cm, hcm, rfl⟩
  rw [makeRulesConfigMaps_data, makeBuckets] at hdm
  refine packGo_le_cap _ _ _ _ _ (by simp) (by rw [bucketSize_nil]; exact Nat.zero_le _)
    ?_ cm.data hdm
  intro n hn
  have hk : n ∈ files.map Prod.fst := (sortStrings_perm _).mem_iff.mp hn
  rcases lookup_isSome_of_mem_keys hk with ⟨v, hv⟩
  rw [hv]
  exact hfit (n, v) (lookup_mem hv)

theorem makeRulesConfigMaps_cap_of_fits_witness :
    bucketSize ((makeRulesConfigMaps ⟨"t", "d"⟩ [("a", "x")]).getD 0 zeroConfigMap).data ≤
      MaxConfigMapDataSize :=
  makeRulesConfigMaps_cap_of_fits ⟨"t", "d"⟩ [("a", "x")] (by decide) _ (by decide)

theorem strBytes_replicate_a (n : Nat) :
    strBytes (String.mk (List.replicate n 'a')) = List.replicate n 97 := by
  induction n with
  | zero => rfl
  | succ m ih =>
    have hca : charBytes 'a' = [97] := rfl
    rw [List.replicate_succ]
    show (List.map charBytes ('a' :: List.replicate m 'a')).flatten = _
    rw [List.map_cons, List.flatten_cons, hca]
    rw [show (List.map charBytes (List.replicate m 'a')).flatten =
      strBytes (String.mk (List.replicate m 'a')) from rfl, ih]
    rfl

theorem byteLen_replicate_a (n : Nat) :
    byteLen (String.mk (List.replicate n 'a')) = n := by
  rw [byteLen, strBytes_replicate_a, List.length_replicate]

/-- C2 counterexample. With a single input file whose content is one byte
larger than `MaxConfigMapDataSize`, `makeRulesConfigMaps` produces a bucket
whose `bucketSize` exceeds the cap: the packer always places a file in the
freshly opened bucket without re-checking the cap. -/
theorem makeRulesConfigMaps_cap_cex :
    ¬ ∀ cm ∈ makeRulesConfigMaps ⟨"t", "d"⟩
        [("a", String.mk (List.replicate (MaxConfigMapDataSize + 1) 'a'))],
      bucketSize cm.data ≤ MaxConfigMapDataSize := by
  intro h
  set big := String.mk (List.replicate (MaxConfigMapDataSize + 1) 'a') with hbig
  have hlen : byteLen big = MaxConfigMapDataSize + 1 := byteLen_replicate_a _
  have hlookup : ([("a", big)].lookup "a") = some big := rfl
  have hsort : sortStrings ([("a", big)].map Prod.fst) = ["a"] := by
    simp [sortStrings, List.insertionSort]
  have hbuckets : makeBuckets MaxConfigMapDataSize [("a", big)] = [[], [("a", big)]] := by
    rw [makeBuckets, hsort, packGo,
      if_pos (by rw [bucketSize_nil, hlookup]; simpa using by omega), packGo]
    simp [hlookup]
  have hmem : [("a", big)] ∈ (makeRulesConfigMaps ⟨"t", "d"⟩ [("a", big)]).map ConfigMap.data := by
    rw [makeRulesConfigMaps_data, hbuckets]
    simp
  rcases List.mem_map.mp hmem with ⟨cm, hcm, hd⟩
  have hle := h cm hcm
  rw [hd, bucketSize_single, hlen] at hle
  omega

theorem adjOverflow_head {cap : Nat} {b q l} (h : adjOverflow cap b (q :: l)) (p) :
    adjOverflow cap b (q :: (l ++ [p])) := h

theorem packGo_chain (cap : Nat) (f : String → String) :
    ∀ (ns : List String) (done : List (List (String × String))) (curr : List (String × String)),
      List.Chain' (adjOverflow cap) (done ++ [curr]) →
      List.Chain' (adjOverflow cap) (packGo cap f ns done curr)
  | [], _, _, h => by rw [packGo]; exact h
  | n :: ns, done, curr, h => by
    rw [packGo]
    split
    · refine packGo_chain cap f ns (done ++ [curr]) [(n, f n)] ?_
      rw [List.chain'_append]
      refine ⟨h, List.chain'_singleton _, ?_⟩
      intro x hx y hy
      rw [List.getLast?_concat] at hx
      cases hx
      cases hy
      show adjOverflow cap curr [(n, f n)]
      simpa [adjOverflow] using by omega
    · refine packGo_chain cap f ns done (curr ++ [(n, f n)]) ?_
      rcases List.eq_nil_or_concat done with rfl | ⟨ds, d, rfl⟩
      · exact List.chain'_singleton _
      · rw [List.chain'_append] at h ⊢
        refine ⟨h.1, List.chain'_singleton _, ?_⟩
        intro x hx y hy
        cases hy
        have hxc := h.2.2 x hx curr (by rfl)
        match curr, hxc with
        | q :: l, hxc => exact adjOverflow_head hxc _

/-- C3. The packer visits filenames in ascending (bytewise lexicographic)
order — the concatenation of the packed buckets lists the sorted filenames
with their contents in order — and between any two consecutive buckets the
next bucket's first file overflowed the previous bucket (`adjOverflow`), so
a new bucket is opened exactly on overflow of the current one and earlier
buckets are never revisited. Concretely, with cap 8: files "a"(6), "b"(2),
"c"(5) put a and b in bucket 0 (size 8) and c in bucket 1; and with files
"a"(4), "b"(7), "c"(1), c joins bucket 1 even though it would fit in the
never-revisited bucket 0. -/
theorem makeBuckets_nextFit :
    (makeBuckets 8 [("b", "bb"), ("a", "aaaaaa"), ("c", "ccccc")] =
      [[("a", "aaaaaa"), ("b", "bb")], [("c", "ccccc")]]) ∧
    (makeBuckets 8 [("a", "aaaa"), ("b", "bbbbbbb"), ("c", "c")] =
      [[("a", "aaaa")], [("b", "bbbbbbb"), ("c", "c")]]) ∧
    (∀ cap files, List.Chain' (adjOverflow cap) (makeBuckets cap files)) ∧
    (∀ cap files, (makeBuckets cap files).flatten =
      (sortStrings (files.map Prod.fst)).map fun n => (n, (files.lookup n).getD "")) := by
  refine ⟨by decide, by decide, ?_, makeBuckets_flatten⟩
  intro cap files
  exact packGo_chain cap _ _ [] [] (List.chain'_singleton _)

theorem sortMap_strict_sorted {l : List (String × String)} (hnd : (l.map Prod.fst).Nodup) :
    List.Pairwise (fun a b : String × String => goStrLe a.1 b.1 = true ∧ a.1 ≠ b.1)
      (sortMap l) := by
  have hs : List.Pairwise (fun a b : String × String => goStrLe a.1 b.1 = true) (sortMap l) :=
    List.sorted_insertionSort _ l
  have hnd' : ((sortMap l).map Prod.fst).Nodup := by
    have : List.Perm ((sortMap l).map Prod.fst) (l.map Prod.fst) :=
      (List.perm_insertionSort _ l).map Prod.fst
    exact this.nodup_iff.mpr hnd
  have hne : List.Pairwise (fun a b : String × String => a.1 ≠ b.1) (sortMap l) :=
    List.pairwise_map.mp hnd'
  exact hs.and hne

theorem sortMap_eq_of_perm {l₁ l₂ : List (String × String)} (hp : List.Perm l₁ l₂)
    (hnd : (l₁.map Prod.fst).Nodup) : sortMap l₁ = sortMap l₂ := by
  have hnd₂ : (l₂.map Prod.fst).Nodup := ((hp.map Prod.fst).nodup_iff).mp hnd
  have hperm : List.Perm (sortMap l₁) (sortMap l₂) :=
    (List.perm_insertionSort _ l₁).trans (hp.trans (List.perm_insertionSort _ l₂).symm)
  haveI : IsAntisymm (String × String)
      (fun a b : String × String => goStrLe a.1 b.1 = true ∧ a.1 ≠ b.1) :=
    ⟨fun _ _ h₁ h₂ => absurd (goStrLe_antisymm h₁.1 h₂.1) h₁.2⟩
  exact List.eq_of_perm_of_sorted hperm (sortMap_strict_sorted hnd) (sortMap_strict_sorted hnd₂)

/-- C4 (amended). `calculateRuleID` returns the same 64-bit hash for any two
rules that agree on expression, record name and alert name and whose label
maps are permutations of each other (label-insertion-order invariance).
However, different fields do not guarantee different hashes: the hash input
concatenates the fields without separators, so distinct rules can collide —
see the counterexample. -/
theorem calculateRuleID_label_order (r₁ r₂ : Rule) (he : r₁.expr = r₂.expr)
    (hr : r₁.record = r₂.record) (ha : r₁.alert = r₂.alert)
    (hp : List.Perm r₁.labels r₂.labels) (hnd : (r₁.labels.map Prod.fst).Nodup) :
    calculateRuleID r₁ = calculateRuleID r₂ := by
  rw [calculateRuleID, calculateRuleID, he, hr, ha, sortMap_eq_of_perm hp hnd]

theorem calculateRuleID_label_order_witness :
    calculateRuleID ⟨"", "a", "up", [("k1", "v1"), ("k2", "v2")]⟩ =
      calculateRuleID ⟨"", "a", "up", [("k2", "v2"), ("k1", "v1")]⟩ :=
  calculateRuleID_label_order _ _ rfl rfl rfl (by decide) (by decide)

/-- C4 counterexample. Two rules that differ in their expression (and alert
name) hash identically: the FNV-1a input of both is the byte string
"Xalertingalerting", because expression, kind tag and name are concatenated
without a separator. The claim that the hash differs whenever the expression
differs is therefore false. -/
theorem calculateRuleID_collision :
    calculateRuleID ⟨"", "", "Xalerting", []⟩ = calculateRuleID ⟨"", "alerting", "X", []⟩ ∧
      Rule.expr ⟨"", "", "Xalerting", []⟩ ≠ Rule.expr ⟨"", "alerting", "X", []⟩ := by
  constructor
  · decide
  · decide

theorem firstOccurrences_nil : firstOccurrences [] = [] := by
  simp [firstOccurrences]

theorem firstOccurrences_cons (r : Rule) (rs : List Rule) :
    firstOccurrences (r :: rs) =
      r :: firstOccurrences (rs.filter fun x => calculateRuleID x != calculateRuleID r) := by
  simp [firstOccurrences]

theorem dedupRulesList_eq_firstOcc : ∀ (seen : List Nat) (l : List Rule),
    dedupRulesList seen l =
      firstOccurrences (l.filter fun r => decide (calculateRuleID r ∉ seen)) := by
  intro seen l
  induction l generalizing seen with
  | nil => rw [List.filter_nil, firstOccurrences_nil, dedupRulesList]
  | cons r rs ih =>
    rw [dedupRulesList, List.filter_cons]
    by_cases hm : calculateRuleID r ∈ seen
    · rw [if_pos hm, if_neg (by simp [hm])]
      exact ih seen
    · rw [if_neg hm, if_pos (by simp [hm]), firstOccurrences_cons]
      congr 1
      rw [ih (calculateRuleID r :: seen), List.filter_filter]
      apply congrArg
      apply List.filter_congr
      intro x _
      by_cases h1 : calculateRuleID x = calculateRuleID r <;>
        by_cases h2 : calculateRuleID x ∈ seen <;>
        simp [h1, h2]

theorem dedupRulesList_sublist : ∀ (seen : List Nat) (l : List Rule),
    (dedupRulesList seen l).Sublist l
  | _, [] => List.Sublist.refl []
  | seen, r :: rs => by
    rw [dedupRulesList]
    split
    · exact (dedupRulesList_sublist seen rs).cons r
    · exact (dedupRulesList_sublist (calculateRuleID r :: seen) rs).cons₂ r

theorem dedupRulesList_hash_not_seen : ∀ (seen : List Nat) (l : List Rule) (h : Nat),
    h ∈ (dedupRulesList seen l).map calculateRuleID → h ∉ seen
  | seen, [], h, hm => by cases hm
  | seen, r :: rs, h, hm => by
    rw [dedupRulesList] at hm
    split at hm
    · exact dedupRulesList_hash_not_seen seen rs h hm
    · rw [List.map_cons] at hm
      rcases List.mem_cons.mp hm with rfl | hm'
      · assumption
      · have := dedupRulesList_hash_not_seen (calculateRuleID r :: seen) rs h hm'
        exact fun hs => this (List.mem_cons_of_mem _ hs)

theorem dedupRulesList_hash_nodup : ∀ (seen : List Nat) (l : List Rule),
    ((dedupRulesList seen l).map calculateRuleID).Nodup
  | _, [] => List.nodup_nil
  | seen, r :: rs => by
    rw [dedupRulesList]
    split
    · exact dedupRulesList_hash_nodup seen rs
    · rw [List.map_cons, List.nodup_cons]
      refine ⟨fun hm => ?_, dedupRulesList_hash_nodup _ rs⟩
      exact dedupRulesList_hash_not_seen _ rs _ hm (List.mem_cons_self _ _)

theorem dedupRulesList_of_nodup : ∀ (seen : List Nat) (l : List Rule),
    (∀ r ∈ l, calculateRuleID r ∉ seen) → (l.map calculateRuleID).Nodup →
    dedupRulesList seen l = l
  | _, [], _, _ => rfl
  | seen, r :: rs, hns, hnd => by
    rw [dedupRulesList, if_neg (hns r (List.mem_cons_self _ _))]
    rw [List.map_cons, List.nodup_cons] at hnd
    congr 1
    refine dedupRulesList_of_nodup _ rs ?_ hnd.2
    intro x hx
    rw [List.mem_cons]
    rintro (h | h)
    · exact hnd.1 (h ▸ List.mem_map.mpr ⟨x, hx, rfl⟩)
    · exact hns x (List.mem_cons_of_mem _ hx) h

/-- C5. `deduplicateRules` maps over the rule sources and their groups
independently, leaving list lengths, source identities, group order and
group names unchanged, and replaces each group's rule list by exactly the
first occurrence of each identity hash in original order
(`firstOccurrences`, the spec's description); the surviving rules form a
sublist of the originals (relative order preserved). The operation is a
total function — it has no error path. -/
theorem deduplicateRules_spec (origin : List VMRule) :
    (deduplicateRules origin = origin.map fun vr =>
      { vr with groups := vr.groups.map fun g => { g with rules := firstOccurrences g.rules } }) ∧
    ∀ vr ∈ origin, ∀ g ∈ vr.groups, (dedupGroup g).rules.Sublist g.rules := by
  constructor
  · have hdg : dedupGroup = fun g => { g with rules := firstOccurrences g.rules } := by
      funext g
      rw [dedupGroup]
      congr 1
      rw [dedupRulesList_eq_firstOcc]
      congr 1
      simp
    rw [deduplicateRules, hdg]
  · intro vr _ g _
    exact dedupRulesList_sublist [] g.rules

/-- C10. `deduplicateRules` is idempotent: after one pass no group contains
two rules with equal identity hashes, so a second pass changes nothing. -/
theorem deduplicateRules_idem (origin : List VMRule) :
    deduplicateRules (deduplicateRules origin) = deduplicateRules origin := by
  simp only [deduplicateRules, List.map_map]
  congr 1
  funext vr
  show VMRule.mk vr.name vr.ns ((vr.groups.map dedupGroup).map dedupGroup) =
    VMRule.mk vr.name vr.ns (vr.groups.map dedupGroup)
  rw [List.map_map]
  apply congrArg
  apply List.map_congr_left
  intro g _
  show dedupGroup (dedupGroup g) = dedupGroup g
  rw [dedupGroup, dedupGroup]
  congr 1
  exact dedupRulesList_of_nodup [] _ (by simp) (dedupRulesList_hash_nodup [] g.rules)

theorem mapSet_lookup_self (m : List (String × String)) (k v : String) :
    (mapSet m k v).lookup k = some v := by
  simp [mapSet]

/-- C6. With a non-empty enforced namespace label key, `generateContent`
sets that label to the source's namespace on every rule of every group
before serialization, replacing any value the rule already carried for that
key; concretely, with key "ns" and namespace "team-a", a rule carrying
ns="other" is rendered with ns="team-a" (last-writer-wins, not a merge). -/
theorem generateContent_enforced (groups : List RuleGroup) (lbl ns : String) (h : lbl ≠ "") :
    (∀ g ∈ generateContent groups lbl ns, ∀ r ∈ g.rules, r.labels.lookup lbl = some ns) ∧
    generateContent [⟨"g", [⟨"", "a", "up", [("ns", "other")]⟩]⟩] "ns" "team-a" =
      [⟨"g", [⟨"", "a", "up", [("ns", "team-a")]⟩]⟩] := by
  constructor
  · intro g hg r hr
    rw [generateContent, if_pos h] at hg
    rcases List.mem_map.mp hg with ⟨g₀, _, rfl⟩
    rcases List.mem_map.mp hr with ⟨r₀, _, rfl⟩
    exact mapSet_lookup_self _ _ _
  · decide

theorem generateContent_enforced_witness :
    generateContent [⟨"g", [⟨"", "a", "up", [("ns", "other")]⟩]⟩] "ns" "team-a" =
      [⟨"g", [⟨"", "a", "up", [("ns", "team-a")]⟩]⟩] :=
  (generateContent_enforced [] "ns" "team-a" (by decide)).2

set_option maxRecDepth 100000 in
/-- C7. When validation and rendering yield zero valid files, exactly the
reserved fallback file default-vmalert.yaml with the fixed default alert
content is injected, the bad-rule accounting is unchanged, and the resulting
artifact set consists of exactly one ConfigMap, which contains the fallback
filename. -/
theorem selectRules_fallback (badCount : Nat) (cr : VMAlert) :
    (selectRulesFinalize [] badCount).1 = [("default-vmalert.yaml", defAlert)] ∧
    (selectRulesFinalize [] badCount).2 = badCount ∧
    (makeRulesConfigMaps cr (selectRulesFinalize [] badCount).1).length = 1 ∧
    ∀ cm ∈ makeRulesConfigMaps cr (selectRulesFinalize [] badCount).1,
      "default-vmalert.yaml" ∈ cm.data.map Prod.fst := by
  have hbuckets : makeBuckets MaxConfigMapDataSize [("default-vmalert.yaml", defAlert)] =
      [[("default-vmalert.yaml", defAlert)]] := by decide
  refine ⟨rfl, rfl, ?_, ?_⟩
  · show (makeRulesConfigMaps cr [("default-vmalert.yaml", defAlert)]).length = 1
    rw [makeRulesConfigMaps, hbuckets]
    rfl
  · intro cm hcm
    rw [show (selectRulesFinalize [] badCount).1 = [("default-vmalert.yaml", defAlert)] from rfl,
      makeRulesConfigMaps, hbuckets] at hcm
    rcases List.mem_map.mp hcm with ⟨ib, hib, rfl⟩
    have : ib = (0, [("default-vmalert.yaml", defAlert)]) := List.mem_singleton.mp hib
    subst this
    exact List.mem_map.mpr ⟨("default-vmalert.yaml", defAlert), List.mem_singleton.mpr rfl, rfl⟩

theorem labelsMerge_lookup_overlay (base overlay : List (String × String)) (k v : String)
    (h : overlay.lookup k = some v) : (labelsMerge base overlay).lookup k = some v := by
  rw [labelsMerge, List.lookup_append, h]
  rfl

theorem labelsMerge_lookup_none (base overlay : List (String × String)) (k : String)
    (h : overlay.lookup k = none) : (labelsMerge base overlay).lookup k = base.lookup k := by
  rw [labelsMerge, List.lookup_append, h, Option.none_or]
  induction base with
  | nil => rfl
  | cons p t ih =>
    obtain ⟨a, b⟩ := p
    by_cases hk : k = a
    · subst hk
      rw [List.filter_cons, if_pos (by simp [h])]
      simp [List.lookup_cons]
    · have hb : (k == a) = false := beq_eq_false_iff_ne.mpr hk
      rw [List.filter_cons]
      split
      · rw [List.lookup_cons, hb, List.lookup_cons, hb]
        exact ih
      · rw [List.lookup_cons, hb]
        exact ih

theorem diffGo_nil_cur : ∀ new : List ConfigMap, diffGo [] new = (new, [])
  | [] => rfl
  | n :: rest => by
    rw [diffGo, diffGo_nil_cur rest]
    rfl

theorem diffGo_spec (cur : List ConfigMap) : ∀ new : List ConfigMap,
    (diffGo cur new).1 =
      (new.filter fun n => (cur.find? fun c => c.name == n.name).isNone) ∧
    (diffGo cur new).2 = (new.filterMap fun n =>
      (cur.find? fun c => c.name == n.name).bind fun c =>
        if cmEq (mergeNewCM n c) c then none else some (mergeNewCM n c))
  | [] => ⟨rfl, rfl⟩
  | n :: rest => by
    have ih := diffGo_spec cur rest
    cases hf : cur.find? fun c => c.name == n.name with
    | none =>
      rw [List.filter_cons, if_pos (by rw [hf]; rfl),
        List.filterMap_cons_none (by rw [hf]; rfl)]
      refine ⟨?_, ?_⟩ <;> rw [diffGo, hf] <;> simp [ih.1, ih.2]
    | some c =>
      rw [List.filter_cons, if_neg (by rw [hf]; simp), List.filterMap_cons]
      by_cases hc : cmEq (mergeNewCM n c) c
      · rw [diffGo, hf]
        simp only [hf, Option.some_bind, if_pos hc]
        exact ⟨by simp [hc, ih.1], by simp [hc, ih.2]⟩
      · rw [diffGo, hf]
        simp only [hf, Option.some_bind, if_neg hc]
        exact ⟨by simp [hc, ih.1], by simp [hc, ih.2]⟩

theorem rulesCMDiff_eq_diffGo (cur new : List ConfigMap) :
    rulesCMDiff cur new = diffGo cur new := by
  rcases new with _ | ⟨n, rest⟩
  · rw [rulesCMDiff]
    simp [diffGo]
  · rcases cur with _ | ⟨c, curt⟩
    · rw [rulesCMDiff, diffGo_nil_cur]
      simp
    · rw [rulesCMDiff]
      simp

/-- C8. `rulesCMDiff` classifies each desired ConfigMap with no name match
among the current ones as a creation; a desired ConfigMap with a name match
is first merged — annotations merged right-biased with the existing map as
base (overlay bindings win, other existing bindings carried over), the
existing finalizer state carried forward, name/labels/data taken from the
desired object — and then dropped when data, labels and merged annotations
are semantically equal to the existing object, otherwise scheduled for
update. Current objects whose name has no counterpart in the desired set
appear in neither output list. -/
theorem rulesCMDiff_spec (cur new : List ConfigMap) :
    ((rulesCMDiff cur new).1 =
      (new.filter fun n => (cur.find? fun c => c.name == n.name).isNone)) ∧
    ((rulesCMDiff cur new).2 = (new.filterMap fun n =>
      (cur.find? fun c => c.name == n.name).bind fun c =>
        if cmEq (mergeNewCM n c) c then none else some (mergeNewCM n c))) ∧
    (∀ base overlay k v, overlay.lookup k = some v →
      (labelsMerge base overlay).lookup k = some v) ∧
    (∀ base overlay k, overlay.lookup k = none →
      (labelsMerge base overlay).lookup k = base.lookup k) ∧
    (∀ n c : ConfigMap, (mergeNewCM n c).finalized = (n.finalized || c.finalized) ∧
      (mergeNewCM n c).name = n.name ∧ (mergeNewCM n c).data = n.data ∧
      (mergeNewCM n c).labels = n.labels ∧
      (mergeNewCM n c).anns = labelsMerge c.anns n.anns) ∧
    (∀ c ∈ cur, (∀ n ∈ new, n.name ≠ c.name) →
      c.name ∉ ((rulesCMDiff cur new).1 ++ (rulesCMDiff cur new).2).map ConfigMap.name) := by
  rw [rulesCMDiff_eq_diffGo]
  have hs := diffGo_spec cur new
  refine ⟨hs.1, hs.2, labelsMerge_lookup_overlay, labelsMerge_lookup_none,
    fun n c => ⟨rfl, rfl, rfl, rfl, rfl⟩, ?_⟩
  intro c _ hnames hmem
  rw [List.map_append] at hmem
  rcases List.mem_append.mp hmem with hm | hm
  · rcases List.mem_map.mp hm with ⟨x, hx, hxn⟩
    rw [hs.1] at hx
    exact hnames x (List.mem_of_mem_filter hx) hxn
  · rcases List.mem_map.mp hm with ⟨x, hx, hxn⟩
    rw [hs.2] at hx
    rcases List.mem_filterMap.mp hx with ⟨n, hn, hfn⟩
    have hxname : x.name = n.name := by
      cases hf : cur.find? fun c' => c'.name == n.name with
      | none => rw [hf] at hfn; cases hfn
      | some c' =>
        rw [hf] at hfn
        simp only [Option.some_bind] at hfn
        by_cases hc : cmEq (mergeNewCM n c') c'
        · rw [if_pos hc] at hfn; cases hfn
        · rw [if_neg hc] at hfn
          cases hfn
          rfl
    exact hnames n hn (hxname ▸ hxn)

/-- C9. Failing input for the fast path of `CreateOrUpdateRuleConfigMaps`:
a cluster holding no rule ConfigMaps at all (`Get` returns NotFound for
every name) and one desired rule file. `currentCMs` is allocated with
`make([]corev1.ConfigMap, len(newConfigMaps))`, so its length equals the
desired-list length (one zero-value entry per NotFound), the
`len(currentCMs) == 0` fast-path branch is not taken, and the creations
instead flow through `rulesCMDiff`, which classifies every desired object
as a creation because the zero-value name "" matches nothing. -/
theorem createOrUpdate_fastPath_dead :
    fastPathTaken (makeRulesConfigMaps ⟨"test", "default"⟩ [("default-r1.yaml", "x")])
        (fun _ => none) = false ∧
    (makeRulesConfigMaps ⟨"test", "default"⟩ [("default-r1.yaml", "x")]).length = 1 ∧
    rulesCMDiff
        (mkCurrentCMs (makeRulesConfigMaps ⟨"test", "default"⟩ [("default-r1.yaml", "x")])
          (fun _ => none))
        (makeRulesConfigMaps ⟨"test", "default"⟩ [("default-r1.yaml", "x")]) =
      (makeRulesConfigMaps ⟨"test", "default"⟩ [("default-r1.yaml", "x")], []) := by
  refine ⟨?_, ?_, ?_⟩ <;> decide
